import Mathlib

/-!
Verification of the random-number-generation core (`random.c`) of the
repository: the self-contained linear-congruential (LCG) backend, its
scalar and batched uniform samplers, and the two Box–Muller transform
policies used by the normal-deviate batch sampler.

Modelling conventions:
* `uint64_t` values are natural numbers, with `% 2^64` wherever the C
  arithmetic wraps.
* C `double` values produced by `(double) k / UINT64_MAX` are modelled by
  the exact rational `k / (2^64 - 1) : ℚ`; transcendental expressions of
  the Box–Muller transform are modelled by the corresponding exact real
  functions (`Real.sqrt`, `Real.log`, `Real.cos`).
* An `int` loop bound `n` is an integer; a loop `for (i = 0; i < n; ...)`
  executes its iterations by counting them (`max n 0` for step 1,
  `⌈max n 0 / 2⌉` for step 2), which is exactly how many times the C
  loop body runs.
* The caller-provided output buffer `double* r` is a total function
  `ℕ → ℝ`; a store `r[i] = v` is `Function.update`.  This lets us state
  exactly which cells a batch call touches.
* The `while (w >= 1.0)` rejection loop of the polar Box–Muller policy is
  modelled with explicit fuel; a run that exhausts its fuel is `none`.
-/

namespace RandomC

/-- The modulus of `uint64_t` arithmetic. -/
def U64 : ℕ := 2 ^ 64

/-- `UINT64_MAX`, the largest representable unsigned 64-bit value. -/
def UINT64_MAX : ℕ := 2 ^ 64 - 1

/-- The multiplier `a` of `random_lcg_integer`. -/
def lcg_a : ℕ := 2862933555777941757

/-- The increment `b` of `random_lcg_integer`. -/
def lcg_b : ℕ := 3037000493

/-- `random_lcg_init(rdata, seed)`: stores the seed as the state word
(`rdata->r = seed`, truncated to `uint64_t`). -/
def random_lcg_init (seed : ℕ) : ℕ := seed % U64

/-- `random_lcg_integer(rdata)`: advances the state word by
`rdata->r = a * rdata->r + b` in `uint64_t` arithmetic and returns the new
state word.  Result: (returned value, new state). -/
def random_lcg_integer (s : ℕ) : ℕ × ℕ :=
  let r := (lcg_a * s + lcg_b) % U64
  (r, r)

/-- The value `(double) k / UINT64_MAX`, modelled exactly in `ℚ`. -/
def u64ToUnit (k : ℕ) : ℚ := (k : ℚ) / (UINT64_MAX : ℚ)

/-- The body of the loop of `random_lcg_uniform_simd`, run for `k`
iterations: each iteration stores `(double) random_lcg_integer(rdata) / UINT64_MAX`
into the next output cell.  Returns the written cells in order, and the
final state. -/
def random_lcg_uniform_go (s : ℕ) : ℕ → List ℚ × ℕ
  | 0 => ([], s)
  | k + 1 =>
    let v := (random_lcg_integer s).1
    let s1 := (random_lcg_integer s).2
    let rest := random_lcg_uniform_go s1 k
    (u64ToUnit v :: rest.1, rest.2)

/-- `random_lcg_uniform_simd(rdata, n, r)`: the loop
`for (i = 0; i < n; i++) r[i] = (double) random_lcg_integer(rdata) / UINT64_MAX;`.
For `n ≤ 0` the loop body never runs. -/
def random_lcg_uniform_simd (s : ℕ) (n : ℤ) : List ℚ × ℕ :=
  random_lcg_uniform_go s n.toNat

/-- `random_lcg_uniform(rdata)`: `double r; random_lcg_uniform_simd(rdata, 1, &r); return r;`. -/
def random_lcg_uniform (s : ℕ) : ℚ × ℕ :=
  let res := random_lcg_uniform_simd s 1
  (res.1.headI, res.2)

/-- The state word after `m` advances of the LCG recurrence. -/
def lcgState (s : ℕ) : ℕ → ℕ
  | 0 => s
  | m + 1 => (random_lcg_integer (lcgState s m)).2

/-- The `m`-th (0-based) uniform deviate drawn from initial state `s`. -/
def lcgU (s : ℕ) (m : ℕ) : ℚ := u64ToUnit (lcgState s (m + 1))

/-- The outputs of `m` successive scalar `random_lcg_uniform` calls starting
from state `s`, threading the state through; with the final state. -/
def uniform_calls (s : ℕ) : ℕ → List ℚ × ℕ
  | 0 => ([], s)
  | m + 1 =>
    let first := random_lcg_uniform s
    let rest := uniform_calls first.2 m
    (first.1 :: rest.1, rest.2)

/- ### The normal-deviate batch sampler `random_lcg_normal_simd`

The C function has two compile-time policies: the geometric (polar) form
when `A5_CCOL_USE_GEOBM == 1`, and the "common" trigonometric form
otherwise.  Both are modelled.  Both share the loop skeleton
`for (i = 0; i < n; i += 2)` with `isEven = (n + 1) % 2`, storing `r[i]`
always and `r[i+1]` only when `i < n - 2 || isEven > 0`.  (The flag
`(n + 1) % 2` is modelled with `Int.emod`, which agrees with the C `%`
whenever `n ≥ 1`; for `n ≤ 0` the loop body never runs and the flag is
never read.) -/

/-- Number of executions of the body of `for (i = 0; i < n; i += 2)`:
`⌈n/2⌉` for `n ≥ 0`, and `0` for negative `n`. -/
def pairCount (n : ℤ) : ℕ := if n ≤ 0 then 0 else (n.toNat + 1) / 2

/-- The first uniform deviate drawn in one loop iteration starting at
state `s` (the C local `x1` of the trigonometric form). -/
def draw1 (s : ℕ) : ℚ := (random_lcg_uniform s).1

/-- The engine state after the first draw of an iteration. -/
def state1 (s : ℕ) : ℕ := (random_lcg_uniform s).2

/-- The second uniform deviate drawn in one loop iteration starting at
state `s` (the C local `x2` of the trigonometric form). -/
def draw2 (s : ℕ) : ℚ := (random_lcg_uniform (state1 s)).1

/-- The engine state after both draws of an iteration. -/
def state2 (s : ℕ) : ℕ := (random_lcg_uniform (state1 s)).2

/-- First element of a trigonometric Box–Muller pair:
`w * s` with `w = sqrt(-2 * log(x1))` and `s = cos(CONST_2PI * x2)`
(`CONST_2PI` is `2π`). -/
noncomputable def trigFst (x1 x2 : ℚ) : ℝ :=
  Real.sqrt (-2 * Real.log (x1 : ℝ)) * Real.cos (2 * Real.pi * (x2 : ℝ))

/-- Second element of a trigonometric Box–Muller pair:
`w * sqrt(1 - s * s)` if `x2 < 0.5`, else `-w * sqrt(1 - s * s)`. -/
noncomputable def trigSnd (x1 x2 : ℚ) : ℝ :=
  if x2 < 1 / 2 then
    Real.sqrt (-2 * Real.log (x1 : ℝ))
      * Real.sqrt (1 - Real.cos (2 * Real.pi * (x2 : ℝ)) * Real.cos (2 * Real.pi * (x2 : ℝ)))
  else
    -(Real.sqrt (-2 * Real.log (x1 : ℝ))
      * Real.sqrt (1 - Real.cos (2 * Real.pi * (x2 : ℝ)) * Real.cos (2 * Real.pi * (x2 : ℝ))))

/-- The stores performed by one iteration of the trigonometric loop at
index `i`: `r[i] = w * s` always, and `r[i+1] = ±w * sqrt(1 - s * s)` only
when `i < n - 2 || isEven > 0`. -/
noncomputable def trigWrite (n i : ℤ) (x1 x2 : ℚ) (out : ℕ → ℝ) : ℕ → ℝ :=
  if i < n - 2 ∨ 0 < (n + 1) % 2 then
    Function.update (Function.update out i.toNat (trigFst x1 x2)) (i.toNat + 1) (trigSnd x1 x2)
  else
    Function.update out i.toNat (trigFst x1 x2)

/-- The trigonometric-policy loop of `random_lcg_normal_simd`, run for `k`
iterations starting at buffer index `i`. -/
noncomputable def normal_trig_go (n : ℤ) : ℕ → ℕ → ℤ → (ℕ → ℝ) → (ℕ → ℝ) × ℕ
  | 0, s, _, out => (out, s)
  | k + 1, s, i, out =>
    normal_trig_go n k (state2 s) (i + 2) (trigWrite n i (draw1 s) (draw2 s) out)

/-- `random_lcg_normal_simd(rdata, n, r)`, trigonometric ("common form")
policy. -/
noncomputable def random_lcg_normal_simd_trig (s : ℕ) (n : ℤ) (out : ℕ → ℝ) : (ℕ → ℝ) × ℕ :=
  normal_trig_go n (pairCount n) s 0 out

/-- `random_lcg_normal(rdata)` under the trigonometric policy:
`double r; random_lcg_normal_simd(rdata, 1, &r); return r;`.  The single
`double r` is modelled as a buffer holding an arbitrary initial
(uninitialized) value `r0`. -/
noncomputable def random_lcg_normal_trig (s : ℕ) (r0 : ℝ) : ℝ × ℕ :=
  ((random_lcg_normal_simd_trig s 1 (fun _ => r0)).1 0,
   (random_lcg_normal_simd_trig s 1 (fun _ => r0)).2)

/-- The C local `x1 = 2 * random_lcg_uniform(rdata) - 1` of one pass of the
polar rejection loop starting at state `s`. -/
def reject_x1 (s : ℕ) : ℚ := 2 * draw1 s - 1

/-- The C local `x2 = 2 * random_lcg_uniform(rdata) - 1` of one pass of the
polar rejection loop starting at state `s`. -/
def reject_x2 (s : ℕ) : ℚ := 2 * draw2 s - 1

/-- The radius `w = x1 * x1 + x2 * x2` of one pass of the polar rejection
loop starting at state `s`. -/
def reject_w (s : ℕ) : ℚ := reject_x1 s * reject_x1 s + reject_x2 s * reject_x2 s

/-- The rejection loop `while (w >= 1.0) { x1 = ...; x2 = ...; w = ...; }`
of the polar (geometric) Box–Muller policy, with explicit fuel; `none`
means the loop did not terminate within `fuel` passes.  On termination it
returns the accepted `(x1, x2, w)` and the engine state after the final
pass. -/
def polar_reject (s : ℕ) : ℕ → Option (ℚ × ℚ × ℚ × ℕ)
  | 0 => none
  | fuel + 1 =>
    if 1 ≤ reject_w s then polar_reject (state2 s) fuel
    else some (reject_x1 s, reject_x2 s, reject_w s, state2 s)

/-- The accepted-radius rescaling `w = sqrt((-2 * log(w)) / w)` of the polar
policy. -/
noncomputable def geoScale (w : ℚ) : ℝ := Real.sqrt ((-2 * Real.log (w : ℝ)) / (w : ℝ))

/-- The stores performed by one iteration of the polar loop at index `i`:
`r[i] = x1 * w` always, `r[i+1] = x2 * w` only when
`i < n - 2 || isEven > 0`. -/
noncomputable def geoWrite (n i : ℤ) (x1 x2 w : ℚ) (out : ℕ → ℝ) : ℕ → ℝ :=
  if i < n - 2 ∨ 0 < (n + 1) % 2 then
    Function.update (Function.update out i.toNat ((x1 : ℝ) * geoScale w))
      (i.toNat + 1) ((x2 : ℝ) * geoScale w)
  else
    Function.update out i.toNat ((x1 : ℝ) * geoScale w)

/-- The polar-policy loop of `random_lcg_normal_simd`, run for `k`
iterations starting at buffer index `i`; each iteration runs the rejection
loop with the given fuel. -/
noncomputable def normal_geo_go (fuel : ℕ) (n : ℤ) : ℕ → ℕ → ℤ → (ℕ → ℝ) → Option ((ℕ → ℝ) × ℕ)
  | 0, s, _, out => some (out, s)
  | k + 1, s, i, out =>
    match polar_reject s fuel with
    | none => none
    | some (x1, x2, w, s2) =>
      normal_geo_go fuel n k s2 (i + 2) (geoWrite n i x1 x2 w out)

/-- `random_lcg_normal_simd(rdata, n, r)`, polar ("geometric form")
policy. -/
noncomputable def random_lcg_normal_simd_geo (fuel : ℕ) (s : ℕ) (n : ℤ) (out : ℕ → ℝ) :
    Option ((ℕ → ℝ) × ℕ) :=
  normal_geo_go fuel n (pairCount n) s 0 out

/-- `random_lcg_normal(rdata)` under the polar policy. -/
noncomputable def random_lcg_normal_geo (fuel : ℕ) (s : ℕ) (r0 : ℝ) : Option (ℝ × ℕ) :=
  (random_lcg_normal_simd_geo fuel s 1 (fun _ => r0)).map (fun res => (res.1 0, res.2))

/- ### Teardown (`destroy()`)

The provided sources contain the backend implementations but not the engine
teardown entry point; only the specification documents it. -/

/-- Modelled from the spec: the `destroy()` teardown operation of the Engine
State is not among the provided sources.  Per the spec, an Engine State
tracks whether its library/device handle has already been released. -/
structure EngineHandle where
  released : Bool

/-- Outcome of a teardown call: either the handle afterwards, or a fatal
(process-terminating) programming error. -/
inductive DestroyOutcome
  | ok (h : EngineHandle)
  | fatalError

/-- Modelled from the spec: `destroy()` "called on an already-released
Engine State is a fatal programming error (abort), never silently ignored";
otherwise it releases the handle exactly once. -/
def destroy (h : EngineHandle) : DestroyOutcome :=
  if h.released then DestroyOutcome.fatalError else DestroyOutcome.ok ⟨true⟩

/-- Modelled from the spec: teardown is "a no-op for the linear-congruential
variant" — the state word is untouched. -/
def random_lcg_destroy (s : ℕ) : ℕ := s

/- ### Basic facts about the uniform sampler -/

theorem random_lcg_integer_eq (s : ℕ) :
    random_lcg_integer s = ((lcg_a * s + lcg_b) % U64, (lcg_a * s + lcg_b) % U64) := rfl

theorem random_lcg_uniform_eq (s : ℕ) :
    random_lcg_uniform s
      = (u64ToUnit ((lcg_a * s + lcg_b) % U64), (lcg_a * s + lcg_b) % U64) := rfl

/-- `lcgState` composes additively. -/
theorem lcgState_add (s : ℕ) (m k : ℕ) :
    lcgState s (m + k) = lcgState (lcgState s m) k := by
  induction k with
  | zero => rfl
  | succ k ih => simpa [lcgState, Nat.add_succ] using congrArg (fun t => (random_lcg_integer t).2) ih

theorem lcgU_shift (s : ℕ) (m : ℕ) :
    lcgU (lcgState s 2) m = lcgU s (m + 2) := by
  unfold lcgU
  refine congrArg u64ToUnit ?_
  rw [show m + 2 + 1 = 2 + (m + 1) by omega]
  exact (lcgState_add s 2 (m + 1)).symm

/-- The state word is always reduced mod `2^64` after one step. -/
theorem lcgState_lt (s : ℕ) (m : ℕ) (hm : 0 < m) : lcgState s m < U64 := by
  obtain ⟨k, rfl⟩ : ∃ k, m = k + 1 := ⟨m - 1, by omega⟩
  have : lcgState s (k + 1) = (lcg_a * lcgState s k + lcg_b) % U64 := rfl
  rw [this]
  exact Nat.mod_lt _ (by norm_num [U64])

/-- C1: every `random_lcg_uniform` call advances the state word by exactly one
step of the affine recurrence `state' = a * state + b (mod 2^64)` with
`a = 2862933555777941757`, `b = 3037000493`, and returns the new state word
divided by `2^64 - 1` (the maximum representable unsigned 64-bit value). -/
theorem c1_uniform_one_affine_step (s : ℕ) :
    (random_lcg_uniform s).2 = (2862933555777941757 * s + 3037000493) % 2 ^ 64
    ∧ (random_lcg_uniform s).1
        = ((2862933555777941757 * s + 3037000493) % 2 ^ 64 : ℕ) / ((2 ^ 64 - 1 : ℕ) : ℚ) := by
  constructor
  · rfl
  · rfl

/-- C2 (counterexample): the claim "`uniform()` returns `r < 1` for every
reachable state" is false: the engine initialized with seed
`1161856439546075578` (a reachable state, since `init` stores any 64-bit
seed verbatim) produces the state word `2^64 - 1` on its first step, and
`uniform()` then returns exactly `1`. -/
theorem c2_counterexample :
    random_lcg_init 1161856439546075578 = 1161856439546075578
    ∧ (random_lcg_uniform 1161856439546075578).1 = 1
    ∧ ¬ (random_lcg_uniform 1161856439546075578).1 < 1 := by
  refine ⟨by decide, ?_, ?_⟩
  · show u64ToUnit ((lcg_a * 1161856439546075578 + lcg_b) % U64) = 1
    have h : (lcg_a * 1161856439546075578 + lcg_b) % U64 = UINT64_MAX := by decide
    rw [h]
    unfold u64ToUnit
    rw [div_self (by norm_num [UINT64_MAX])]
  · intro hlt
    have h1 : (random_lcg_uniform 1161856439546075578).1 = 1 := by
      show u64ToUnit ((lcg_a * 1161856439546075578 + lcg_b) % U64) = 1
      have h : (lcg_a * 1161856439546075578 + lcg_b) % U64 = UINT64_MAX := by decide
      rw [h]
      unfold u64ToUnit
      rw [div_self (by norm_num [UINT64_MAX])]
    rw [h1] at hlt
    exact lt_irrefl _ hlt

/-- C2 (amended): for every state `s`, `uniform()` returns `r` with
`0 ≤ r ≤ 1`, and `r = 1` exactly when the new state word is `2^64 - 1`. -/
theorem c2_uniform_range (s : ℕ) :
    0 ≤ (random_lcg_uniform s).1
    ∧ (random_lcg_uniform s).1 ≤ 1
    ∧ ((random_lcg_uniform s).1 = 1 ↔ (random_lcg_uniform s).2 = UINT64_MAX) := by
  have hval : (random_lcg_uniform s).1 = u64ToUnit ((lcg_a * s + lcg_b) % U64) := rfl
  have hst : (random_lcg_uniform s).2 = (lcg_a * s + lcg_b) % U64 := rfl
  set k : ℕ := (lcg_a * s + lcg_b) % U64 with hk
  have hkle : k ≤ UINT64_MAX := by
    have := Nat.mod_lt (lcg_a * s + lcg_b) (show 0 < U64 by norm_num [U64])
    simp only [UINT64_MAX, U64] at *
    omega
  have hDpos : (0 : ℚ) < (UINT64_MAX : ℚ) := by norm_num [UINT64_MAX]
  refine ⟨?_, ?_, ?_⟩
  · rw [hval]
    exact div_nonneg (Nat.cast_nonneg k) (le_of_lt hDpos)
  · rw [hval]
    unfold u64ToUnit
    rw [div_le_one hDpos]
    exact_mod_cast hkle
  · rw [hval, hst]
    unfold u64ToUnit
    rw [div_eq_one_iff_eq (ne_of_gt hDpos)]
    exact ⟨fun h => Nat.cast_injective h, fun h => by rw [h]⟩

/-- C6 (counterexample): the claim's arithmetic is wrong: from seed 1 the
first state transition produces
`(2862933555777941757 * 1 + 3037000493) mod 2^64 = 2862933558814942250`,
not `2862933555780979250` as the claim states. -/
theorem c6_counterexample :
    (random_lcg_integer (random_lcg_init 1)).2 = 2862933558814942250
    ∧ (2862933558814942250 : ℕ) ≠ 2862933555780979250 := by
  constructor
  · decide
  · decide

/-- C6 (amended): for the LCG engine initialized with seed 1, the first state
transition produces `(2862933555777941757 * 1 + 3037000493) mod 2^64
= 2862933558814942250`, and the first `uniform()` call returns that integer
divided by `2^64 - 1`. -/
theorem c6_seed1_regression :
    (random_lcg_integer (random_lcg_init 1)).2 = 2862933558814942250
    ∧ (random_lcg_uniform (random_lcg_init 1)).1
        = (2862933558814942250 : ℚ) / ((2 ^ 64 - 1 : ℕ) : ℚ) := by
  constructor
  · decide
  · show u64ToUnit ((lcg_a * random_lcg_init 1 + lcg_b) % U64)
        = (2862933558814942250 : ℚ) / ((2 ^ 64 - 1 : ℕ) : ℚ)
    have h : (lcg_a * random_lcg_init 1 + lcg_b) % U64 = 2862933558814942250 := by decide
    rw [h]
    rfl

/-- C7: two LCG engine states initialized with the same seed and subjected to
the same sequence of `uniform()` calls produce identical output sequences and
identical final states: the output is a function of the seed and the number
of calls alone. -/
theorem c7_same_seed_same_sequence (seed : ℕ) (e₁ e₂ : ℕ)
    (h₁ : e₁ = random_lcg_init seed) (h₂ : e₂ = random_lcg_init seed) (m : ℕ) :
    uniform_calls e₁ m = uniform_calls e₂ m := by
  rw [h₁, h₂]

theorem c7_witness :
    uniform_calls (random_lcg_init 42) 3 = uniform_calls (random_lcg_init 42) 3 :=
  c7_same_seed_same_sequence 42 (random_lcg_init 42) (random_lcg_init 42) rfl rfl 3

/- ### Pointwise behaviour of the per-iteration stores -/

theorem trigWrite_untouched (n i : ℤ) (x1 x2 : ℚ) (out : ℕ → ℝ) (m : ℕ)
    (hm1 : m ≠ i.toNat)
    (hm2 : (i < n - 2 ∨ 0 < (n + 1) % 2) → m ≠ i.toNat + 1) :
    trigWrite n i x1 x2 out m = out m := by
  unfold trigWrite
  split
  · rename_i hc
    rw [Function.update_noteq (hm2 hc), Function.update_noteq hm1]
  · rw [Function.update_noteq hm1]

theorem trigWrite_fst (n i : ℤ) (x1 x2 : ℚ) (out : ℕ → ℝ) :
    trigWrite n i x1 x2 out i.toNat = trigFst x1 x2 := by
  unfold trigWrite
  split
  · rw [Function.update_noteq (by omega), Function.update_same]
  · rw [Function.update_same]

theorem trigWrite_snd (n i : ℤ) (x1 x2 : ℚ) (out : ℕ → ℝ)
    (hc : i < n - 2 ∨ 0 < (n + 1) % 2) :
    trigWrite n i x1 x2 out (i.toNat + 1) = trigSnd x1 x2 := by
  unfold trigWrite
  rw [if_pos hc, Function.update_same]

theorem geoWrite_untouched (n i : ℤ) (x1 x2 w : ℚ) (out : ℕ → ℝ) (m : ℕ)
    (hm1 : m ≠ i.toNat)
    (hm2 : (i < n - 2 ∨ 0 < (n + 1) % 2) → m ≠ i.toNat + 1) :
    geoWrite n i x1 x2 w out m = out m := by
  unfold geoWrite
  split
  · rename_i hc
    rw [Function.update_noteq (hm2 hc), Function.update_noteq hm1]
  · rw [Function.update_noteq hm1]

theorem geoWrite_fst (n i : ℤ) (x1 x2 w : ℚ) (out : ℕ → ℝ) :
    geoWrite n i x1 x2 w out i.toNat = (x1 : ℝ) * geoScale w := by
  unfold geoWrite
  split
  · rw [Function.update_noteq (by omega), Function.update_same]
  · rw [Function.update_same]

theorem geoWrite_snd (n i : ℤ) (x1 x2 w : ℚ) (out : ℕ → ℝ)
    (hc : i < n - 2 ∨ 0 < (n + 1) % 2) :
    geoWrite n i x1 x2 w out (i.toNat + 1) = (x2 : ℝ) * geoScale w := by
  unfold geoWrite
  rw [if_pos hc, Function.update_same]

/- ### Structural lemmas for the trigonometric batch loop -/

theorem normal_trig_go_succ (n : ℤ) (k s : ℕ) (i : ℤ) (out : ℕ → ℝ) :
    normal_trig_go n (k + 1) s i out
      = normal_trig_go n k (state2 s) (i + 2) (trigWrite n i (draw1 s) (draw2 s) out) := rfl

/-- The trigonometric loop never touches a cell at or beyond `n` when every
iteration index stays in range (`i + 2k ≤ n + 1`, `i` even). -/
theorem normal_trig_go_high (n : ℤ) (k : ℕ) : ∀ (s : ℕ) (i : ℤ) (out : ℕ → ℝ) (m : ℕ),
    0 ≤ i → i % 2 = 0 → i + 2 * k ≤ n + 1 → n ≤ (m : ℤ) →
    (normal_trig_go n k s i out).1 m = out m := by
  induction k with
  | zero => intro s i out m _ _ _ _; rfl
  | succ k ih =>
    intro s i out m hi hpar hb hm
    rw [normal_trig_go_succ,
      ih (state2 s) (i + 2) _ m (by omega) (by omega) (by omega) hm]
    apply trigWrite_untouched
    · omega
    · intro hc
      rcases hc with hc | hc
      · omega
      · omega

/-- The trigonometric loop never touches a cell strictly below its starting
index. -/
theorem normal_trig_go_low (n : ℤ) (k : ℕ) : ∀ (s : ℕ) (i : ℤ) (out : ℕ → ℝ) (m : ℕ),
    0 ≤ i → (m : ℤ) < i → (normal_trig_go n k s i out).1 m = out m := by
  induction k with
  | zero => intro s i out m _ _; rfl
  | succ k ih =>
    intro s i out m hi hm
    rw [normal_trig_go_succ, ih (state2 s) (i + 2) _ m (by omega) (by omega)]
    apply trigWrite_untouched
    · omega
    · intro _
      omega

/-- Cells in `[i, n)` after a covering run (`n ≤ i + 2k`) do not depend on
the initial contents of the buffer: they are all written. -/
theorem normal_trig_go_below (n : ℤ) (k : ℕ) :
    ∀ (s : ℕ) (i : ℤ) (out out2 : ℕ → ℝ) (m : ℕ),
    0 ≤ i → i % 2 = 0 → n ≤ i + 2 * k → i ≤ (m : ℤ) → (m : ℤ) < n →
    (normal_trig_go n k s i out).1 m = (normal_trig_go n k s i out2).1 m := by
  induction k with
  | zero =>
    intro s i out out2 m hi hpar hcov hge hlt
    exfalso
    omega
  | succ k ih =>
    intro s i out out2 m hi hpar hcov hge hlt
    rw [normal_trig_go_succ, normal_trig_go_succ]
    by_cases hcase : (m : ℤ) < i + 2
    · rw [normal_trig_go_low n k _ _ _ _ (by omega) hcase,
        normal_trig_go_low n k _ _ _ _ (by omega) hcase]
      by_cases hm0 : m = i.toNat
      · rw [hm0, trigWrite_fst, trigWrite_fst]
      · have hm1 : m = i.toNat + 1 := by omega
        have hc : i < n - 2 ∨ 0 < (n + 1) % 2 := by omega
        rw [hm1, trigWrite_snd _ _ _ _ _ hc, trigWrite_snd _ _ _ _ _ hc]
    · exact ih _ _ _ _ _ (by omega) (by omega) (by omega) (by omega) hlt

/-- The value stored by iteration `t` of the trigonometric loop: the pair at
buffer indices `i + 2t`, `i + 2t + 1` is the Box–Muller transform of the
uniform deviates number `2t` and `2t + 1` of the stream from state `s`. -/
theorem normal_trig_go_val (n : ℤ) (k : ℕ) : ∀ (s : ℕ) (i : ℤ) (out : ℕ → ℝ) (t : ℕ),
    t < k → 0 ≤ i →
    ((normal_trig_go n k s i out).1 (i + 2 * (t : ℤ)).toNat
        = trigFst (lcgU s (2 * t)) (lcgU s (2 * t + 1)))
    ∧ ((i + 2 * (t : ℤ) < n - 2 ∨ 0 < (n + 1) % 2) →
        (normal_trig_go n k s i out).1 ((i + 2 * (t : ℤ)).toNat + 1)
          = trigSnd (lcgU s (2 * t)) (lcgU s (2 * t + 1))) := by
  induction k with
  | zero =>
    intro s i out t ht _
    exact absurd ht (by omega)
  | succ k ih =>
    intro s i out t ht hi
    rw [normal_trig_go_succ]
    cases t with
    | zero =>
      simp only [Nat.cast_zero, mul_zero, add_zero]
      constructor
      · rw [normal_trig_go_low n k _ _ _ _ (by omega) (by omega), trigWrite_fst]
        rfl
      · intro hc
        rw [normal_trig_go_low n k _ _ _ _ (by omega) (by omega),
          trigWrite_snd _ _ _ _ _ hc]
        rfl
    | succ u =>
      have hs2 : state2 s = lcgState s 2 := rfl
      have H := ih (state2 s) (i + 2) (trigWrite n i (draw1 s) (draw2 s) out) u
        (by omega) (by omega)
      rw [hs2, lcgU_shift, lcgU_shift] at H
      have e1 : 2 * u + 2 = 2 * (u + 1) := by omega
      have e2 : 2 * u + 1 + 2 = 2 * (u + 1) + 1 := by omega
      rw [e1, e2] at H
      have e4 : (i + 2 * ((u + 1 : ℕ) : ℤ)).toNat = (i + 2 + 2 * (u : ℤ)).toNat := by
        push_cast
        omega
      rw [e4]
      refine ⟨H.1, fun hc => H.2 ?_⟩
      rcases hc with hc | hc
      · left
        push_cast at hc ⊢
        omega
      · right
        exact hc

/- ### The polar rejection loop (C5) -/

/-- `x1 = 2 * random_lcg_uniform(rdata) - 1` can never be exactly zero: the
uniform deviate is `k / (2^64 - 1)` for an integer `k`, and `2 * k` can
never equal the odd number `2^64 - 1`. -/
theorem reject_x1_ne_zero (s : ℕ) : reject_x1 s ≠ 0 := by
  intro h
  have hval : reject_x1 s
      = 2 * ((((lcg_a * s + lcg_b) % U64 : ℕ) : ℚ) / ((UINT64_MAX : ℕ) : ℚ)) - 1 := rfl
  rw [hval] at h
  have hD : ((UINT64_MAX : ℕ) : ℚ) ≠ 0 := by norm_num [UINT64_MAX]
  set k : ℕ := (lcg_a * s + lcg_b) % U64 with hk
  have h2 : ((2 * k : ℕ) : ℚ) = ((UINT64_MAX : ℕ) : ℚ) := by
    push_cast
    field_simp at h
    linarith
  have h3 : 2 * k = UINT64_MAX := Nat.cast_injective h2
  have h4 : UINT64_MAX = 18446744073709551615 := by norm_num [UINT64_MAX]
  omega

/-- C5: under the polar (geometric) Box–Muller policy, whenever the
rejection loop terminates, the accepted radius `w` is exactly
`x1 * x1 + x2 * x2` for the final pair of shifted uniforms, and it satisfies
`w < 1` and `w ≠ 0` — so the degenerate denominator `w = 0` is never passed
to `sqrt((-2 * log w) / w)`. -/
theorem c5_polar_accept (s fuel : ℕ) (x1 x2 w : ℚ) (sf : ℕ)
    (h : polar_reject s fuel = some (x1, x2, w, sf)) :
    w = x1 * x1 + x2 * x2 ∧ w < 1 ∧ w ≠ 0 := by
  induction fuel generalizing s with
  | zero => simp [polar_reject] at h
  | succ fuel ih =>
    simp only [polar_reject] at h
    split at h
    · exact ih _ h
    · rename_i hw
      simp only [Option.some.injEq, Prod.mk.injEq] at h
      obtain ⟨hx1, hx2, hww, _⟩ := h
      subst hx1; subst hx2; subst hww
      refine ⟨rfl, by linarith [not_le.mp hw], ?_⟩
      intro h0
      unfold reject_w at h0
      have h1 := mul_self_nonneg (reject_x1 s)
      have h2 := mul_self_nonneg (reject_x2 s)
      have hx : reject_x1 s * reject_x1 s = 0 := by linarith
      exact reject_x1_ne_zero s (mul_self_eq_zero.mp hx)

theorem c5_witness :
    reject_w 1 = reject_x1 1 * reject_x1 1 + reject_x2 1 * reject_x2 1
    ∧ reject_w 1 < 1 ∧ reject_w 1 ≠ 0 :=
  c5_polar_accept 1 1 (reject_x1 1) (reject_x2 1) (reject_w 1) (state2 1)
    (by
      simp only [polar_reject]
      rw [if_neg (by
        simp only [reject_w, reject_x1, reject_x2, draw1, draw2, state1, state2,
          random_lcg_uniform, random_lcg_uniform_simd, random_lcg_uniform_go, u64ToUnit,
          random_lcg_integer, lcg_a, lcg_b, U64, UINT64_MAX, List.headI, Int.toNat]
        norm_num)])

/- ### Structural lemmas for the polar batch loop -/

theorem normal_geo_go_none (fuel : ℕ) (n : ℤ) (k s : ℕ) (i : ℤ) (out : ℕ → ℝ)
    (hpr : polar_reject s fuel = none) :
    normal_geo_go fuel n (k + 1) s i out = none := by
  simp only [normal_geo_go, hpr]

theorem normal_geo_go_succ (fuel : ℕ) (n : ℤ) (k s : ℕ) (i : ℤ) (out : ℕ → ℝ)
    (x1 x2 w : ℚ) (s2 : ℕ) (hpr : polar_reject s fuel = some (x1, x2, w, s2)) :
    normal_geo_go fuel n (k + 1) s i out
      = normal_geo_go fuel n k s2 (i + 2) (geoWrite n i x1 x2 w out) := by
  simp only [normal_geo_go, hpr]

/-- A completed polar loop never touches a cell at or beyond `n` when every
iteration index stays in range. -/
theorem normal_geo_go_high (fuel : ℕ) (n : ℤ) (k : ℕ) :
    ∀ (s : ℕ) (i : ℤ) (out : ℕ → ℝ) (res : (ℕ → ℝ) × ℕ) (m : ℕ),
    normal_geo_go fuel n k s i out = some res →
    0 ≤ i → i % 2 = 0 → i + 2 * k ≤ n + 1 → n ≤ (m : ℤ) →
    res.1 m = out m := by
  induction k with
  | zero =>
    intro s i out res m h _ _ _ _
    simp only [normal_geo_go, Option.some.injEq] at h
    rw [← h]
  | succ k ih =>
    intro s i out res m h hi hpar hb hm
    cases hpr : polar_reject s fuel with
    | none =>
      rw [normal_geo_go_none fuel n k s i out hpr] at h
      exact absurd h (by simp)
    | some a =>
      obtain ⟨x1, x2, w, s2⟩ := a
      rw [normal_geo_go_succ fuel n k s i out x1 x2 w s2 hpr] at h
      rw [ih s2 (i + 2) _ res m h (by omega) (by omega) (by omega) hm]
      apply geoWrite_untouched
      · omega
      · intro hc
        rcases hc with hc | hc
        · omega
        · omega

/-- A completed polar loop never touches a cell strictly below its starting
index. -/
theorem normal_geo_go_low (fuel : ℕ) (n : ℤ) (k : ℕ) :
    ∀ (s : ℕ) (i : ℤ) (out : ℕ → ℝ) (res : (ℕ → ℝ) × ℕ) (m : ℕ),
    normal_geo_go fuel n k s i out = some res →
    0 ≤ i → (m : ℤ) < i →
    res.1 m = out m := by
  induction k with
  | zero =>
    intro s i out res m h _ _
    simp only [normal_geo_go, Option.some.injEq] at h
    rw [← h]
  | succ k ih =>
    intro s i out res m h hi hm
    cases hpr : polar_reject s fuel with
    | none =>
      rw [normal_geo_go_none fuel n k s i out hpr] at h
      exact absurd h (by simp)
    | some a =>
      obtain ⟨x1, x2, w, s2⟩ := a
      rw [normal_geo_go_succ fuel n k s i out x1 x2 w s2 hpr] at h
      rw [ih s2 (i + 2) _ res m h (by omega) (by omega)]
      apply geoWrite_untouched
      · omega
      · intro _
        omega

/-- Cells in `[i, n)` after a completed covering polar run do not depend on
the initial contents of the buffer: they are all written. -/
theorem normal_geo_go_below (fuel : ℕ) (n : ℤ) (k : ℕ) :
    ∀ (s : ℕ) (i : ℤ) (out out2 : ℕ → ℝ) (res res2 : (ℕ → ℝ) × ℕ) (m : ℕ),
    normal_geo_go fuel n k s i out = some res →
    normal_geo_go fuel n k s i out2 = some res2 →
    0 ≤ i → i % 2 = 0 → n ≤ i + 2 * k → i ≤ (m : ℤ) → (m : ℤ) < n →
    res.1 m = res2.1 m := by
  induction k with
  | zero =>
    intro s i out out2 res res2 m h h2 hi hpar hcov hge hlt
    exfalso
    omega
  | succ k ih =>
    intro s i out out2 res res2 m h h2 hi hpar hcov hge hlt
    cases hpr : polar_reject s fuel with
    | none =>
      rw [normal_geo_go_none fuel n k s i out hpr] at h
      exact absurd h (by simp)
    | some a =>
      obtain ⟨x1, x2, w, s2⟩ := a
      rw [normal_geo_go_succ fuel n k s i out x1 x2 w s2 hpr] at h
      rw [normal_geo_go_succ fuel n k s i out2 x1 x2 w s2 hpr] at h2
      by_cases hcase : (m : ℤ) < i + 2
      · rw [normal_geo_go_low fuel n k _ _ _ _ _ h (by omega) hcase,
          normal_geo_go_low fuel n k _ _ _ _ _ h2 (by omega) hcase]
        by_cases hm0 : m = i.toNat
        · rw [hm0, geoWrite_fst, geoWrite_fst]
        · have hm1 : m = i.toNat + 1 := by omega
          have hc : i < n - 2 ∨ 0 < (n + 1) % 2 := by omega
          rw [hm1, geoWrite_snd _ _ _ _ _ _ hc, geoWrite_snd _ _ _ _ _ _ hc]
      · exact ih _ _ _ _ _ _ _ h h2 (by omega) (by omega) (by omega) (by omega) hlt

/- ### Batch write discipline (C3) and the trigonometric pair formula (C4) -/

theorem pairCount_bounds (n : ℤ) (hn : 0 ≤ n) :
    n ≤ 2 * (pairCount n : ℤ) ∧ 2 * (pairCount n : ℤ) ≤ n + 1 := by
  unfold pairCount
  split
  · constructor <;> simp <;> omega
  · rename_i h
    constructor <;> push_cast <;> omega

/-- C3: for every `n ≥ 0` and every engine state, `normal_batch(n, out)`
writes exactly the cells `out[0..n)`: every cell at index `≥ n` keeps its
previous contents (in particular `out[n]` when `n` is odd), and every cell
at index `< n` is written — its final value does not depend on the initial
buffer contents.  Both Box–Muller policies are covered (the polar one for
completed runs of its fuelled rejection loop). -/
theorem c3_normal_batch_writes (s : ℕ) (n : ℤ) (hn : 0 ≤ n) (out out2 : ℕ → ℝ)
    (fuel : ℕ) (res res2 : (ℕ → ℝ) × ℕ) :
    (∀ m : ℕ, n ≤ (m : ℤ) → (random_lcg_normal_simd_trig s n out).1 m = out m)
    ∧ (∀ m : ℕ, (m : ℤ) < n →
        (random_lcg_normal_simd_trig s n out).1 m
          = (random_lcg_normal_simd_trig s n out2).1 m)
    ∧ (random_lcg_normal_simd_geo fuel s n out = some res →
        ∀ m : ℕ, n ≤ (m : ℤ) → res.1 m = out m)
    ∧ (random_lcg_normal_simd_geo fuel s n out = some res →
        random_lcg_normal_simd_geo fuel s n out2 = some res2 →
        ∀ m : ℕ, (m : ℤ) < n → res.1 m = res2.1 m) := by
  obtain ⟨hb1, hb2⟩ := pairCount_bounds n hn
  refine ⟨?_, ?_, ?_, ?_⟩
  · intro m hm
    exact normal_trig_go_high n (pairCount n) s 0 out m (by omega) (by omega) (by omega) hm
  · intro m hm
    exact normal_trig_go_below n (pairCount n) s 0 out out2 m
      (by omega) (by omega) (by omega) (by omega) hm
  · intro h m hm
    exact normal_geo_go_high fuel n (pairCount n) s 0 out res m h
      (by omega) (by omega) (by omega) hm
  · intro h h2 m hm
    exact normal_geo_go_below fuel n (pairCount n) s 0 out out2 res res2 m h h2
      (by omega) (by omega) (by omega) (by omega) hm

theorem c3_witness :
    (random_lcg_normal_simd_trig 1 3 (fun _ => 0)).1 3 = 0 :=
  (c3_normal_batch_writes 1 3 (by norm_num) (fun _ => 0) (fun _ => 1) 0
    ((fun _ => 0, 0) : (ℕ → ℝ) × ℕ) ((fun _ => 0, 0) : (ℕ → ℝ) × ℕ)).1 3 (by norm_num)

/-- C4: under the trigonometric Box–Muller policy, the pair `j` of the
normal batch is computed from the two consecutive uniforms
`x1 = lcgU s (2j)`, `x2 = lcgU s (2j + 1)` as: first element `w * s` with
`w = sqrt(-2 ln x1)` and `s = cos(2π x2)`; second element
`+w * sqrt(1 - s²)` if `x2 < 0.5` and `-w * sqrt(1 - s²)` otherwise. -/
theorem c4_trig_pair_formula (s : ℕ) (n : ℤ) (out : ℕ → ℝ) (j : ℕ)
    (h1 : 2 * (j : ℤ) < n) :
    ((random_lcg_normal_simd_trig s n out).1 (2 * j)
        = Real.sqrt (-2 * Real.log ((lcgU s (2 * j) : ℚ) : ℝ))
            * Real.cos (2 * Real.pi * ((lcgU s (2 * j + 1) : ℚ) : ℝ)))
    ∧ (2 * (j : ℤ) + 1 < n →
        (random_lcg_normal_simd_trig s n out).1 (2 * j + 1)
          = if lcgU s (2 * j + 1) < 1 / 2 then
              Real.sqrt (-2 * Real.log ((lcgU s (2 * j) : ℚ) : ℝ))
                * Real.sqrt (1 - Real.cos (2 * Real.pi * ((lcgU s (2 * j + 1) : ℚ) : ℝ)) ^ 2)
            else
              -(Real.sqrt (-2 * Real.log ((lcgU s (2 * j) : ℚ) : ℝ))
                * Real.sqrt (1 - Real.cos (2 * Real.pi * ((lcgU s (2 * j + 1) : ℚ) : ℝ)) ^ 2))) := by
  have hn : 0 ≤ n := by omega
  obtain ⟨hb1, hb2⟩ := pairCount_bounds n hn
  have ht : j < pairCount n := by omega
  have H := normal_trig_go_val n (pairCount n) s 0 out j ht (by omega)
  have e1 : ((0 : ℤ) + 2 * (j : ℤ)).toNat = 2 * j := by omega
  rw [e1] at H
  have hdef : random_lcg_normal_simd_trig s n out = normal_trig_go n (pairCount n) s 0 out := rfl
  constructor
  · rw [hdef, H.1]
    rfl
  · intro h2
    rw [hdef, H.2 (by omega)]
    unfold trigSnd
    split
    · rw [pow_two]
    · rw [pow_two]

theorem c4_witness :
    (random_lcg_normal_simd_trig 1 2 (fun _ => 0)).1 (2 * 0)
      = Real.sqrt (-2 * Real.log ((lcgU 1 (2 * 0) : ℚ) : ℝ))
          * Real.cos (2 * Real.pi * ((lcgU 1 (2 * 0 + 1) : ℚ) : ℝ)) :=
  (c4_trig_pair_formula 1 2 (fun _ => 0) 0 (by norm_num)).1

/- ### Degenerate batch sizes (C8) -/

/-- C8 (counterexample): a batch request with negative `n` is NOT a fatal
error: the loop guard `i < n` fails immediately, so the call silently
behaves exactly like `n = 0`, writing nothing and leaving the engine state
unchanged. -/
theorem c8_counterexample :
    random_lcg_uniform_simd 7 (-1) = random_lcg_uniform_simd 7 0
    ∧ random_lcg_uniform_simd 7 (-1) = ([], 7)
    ∧ random_lcg_normal_simd_trig 7 (-1) (fun _ => (0 : ℝ)) = (fun _ => (0 : ℝ), 7) :=
  ⟨rfl, rfl, rfl⟩

/-- C8 (amended): a batch request with `n = 0` — and likewise any `n ≤ 0` —
succeeds trivially: `uniform_batch` and `normal_batch` (either policy)
write nothing and leave the engine state unchanged; negative `n` is
silently treated as `n = 0`, not aborted. -/
theorem c8_zero_noop (s : ℕ) (n : ℤ) (hn : n ≤ 0) (out : ℕ → ℝ) (fuel : ℕ) :
    random_lcg_uniform_simd s n = ([], s)
    ∧ random_lcg_normal_simd_trig s n out = (out, s)
    ∧ random_lcg_normal_simd_geo fuel s n out = some (out, s) := by
  have h1 : n.toNat = 0 := by omega
  have h2 : pairCount n = 0 := by unfold pairCount; rw [if_pos hn]
  refine ⟨?_, ?_, ?_⟩
  · unfold random_lcg_uniform_simd
    rw [h1]
    rfl
  · unfold random_lcg_normal_simd_trig
    rw [h2]
    rfl
  · unfold random_lcg_normal_simd_geo
    rw [h2]
    rfl

theorem c8_witness :
    random_lcg_uniform_simd 7 0 = ([], 7)
    ∧ random_lcg_normal_simd_trig 7 0 (fun _ => (0 : ℝ)) = (fun _ => (0 : ℝ), 7)
    ∧ random_lcg_normal_simd_geo 0 7 0 (fun _ => (0 : ℝ)) = some (fun _ => (0 : ℝ), 7) :=
  c8_zero_noop 7 0 (by decide) (fun _ => 0) 0

/- ### Teardown (C9) -/

/-- C9: `destroy()` on an already-released Engine State is a fatal
programming error, never silently ignored; a first `destroy()` releases the
handle exactly once, and for the linear-congruential variant teardown is a
no-op on the state word. -/
theorem c9_destroy (s : ℕ) :
    destroy ⟨true⟩ = DestroyOutcome.fatalError
    ∧ destroy ⟨false⟩ = DestroyOutcome.ok ⟨true⟩
    ∧ random_lcg_destroy s = s :=
  ⟨rfl, rfl, rfl⟩

/- ### Batch/scalar refinement (C10) -/

/-- The uniform batch loop run for `k` iterations equals `k` sequential
scalar `random_lcg_uniform` calls: same values, same final state. -/
theorem uniform_go_eq_calls (k : ℕ) : ∀ s : ℕ,
    random_lcg_uniform_go s k = uniform_calls s k := by
  induction k with
  | zero => intro s; rfl
  | succ k ih =>
    intro s
    show (u64ToUnit (random_lcg_integer s).1 :: (random_lcg_uniform_go (random_lcg_integer s).2 k).1,
          (random_lcg_uniform_go (random_lcg_integer s).2 k).2)
      = ((random_lcg_uniform s).1 :: (uniform_calls (random_lcg_uniform s).2 k).1,
         (uniform_calls (random_lcg_uniform s).2 k).2)
    rw [show (random_lcg_uniform_go (random_lcg_integer s).2 k) = uniform_calls (random_lcg_integer s).2 k from ih _]
    rfl

/-- C10: for every `n ≥ 0`, `uniform_batch(n)` yields exactly the same `n`
values as `n` sequential scalar `uniform()` calls from the same state, and
leaves the engine in the same final state; and the scalar `uniform()` and
`normal()` (either policy) equal the single element produced by the
corresponding batch call with `n = 1`. -/
theorem c10_batch_refines_scalar (s : ℕ) (n : ℤ) (_hn : 0 ≤ n) (r0 : ℝ) (fuel : ℕ) :
    random_lcg_uniform_simd s n = uniform_calls s n.toNat
    ∧ random_lcg_uniform s
        = ((random_lcg_uniform_simd s 1).1.headI, (random_lcg_uniform_simd s 1).2)
    ∧ random_lcg_normal_trig s r0
        = ((random_lcg_normal_simd_trig s 1 (fun _ => r0)).1 0,
           (random_lcg_normal_simd_trig s 1 (fun _ => r0)).2)
    ∧ random_lcg_normal_geo fuel s r0
        = (random_lcg_normal_simd_geo fuel s 1 (fun _ => r0)).map (fun res => (res.1 0, res.2)) :=
  ⟨uniform_go_eq_calls n.toNat s, rfl, rfl, rfl⟩

theorem c10_witness :
    random_lcg_uniform_simd 9 3 = uniform_calls 9 3 :=
  (c10_batch_refines_scalar 9 3 (by decide) 0 0).1

end RandomC
